import Mathlib

/-!
# Verification of the SPIMEX trading API core

Shallow embedding of the repository's daily-anchored cache TTL algorithm
(`app/cache.py`), the filtered query service (`app/services/trading.py`),
the request handlers' cache-key derivation and cache-write sequencing
(`main.py`), and the Redis/JSON cache round trip (`app/cache.py`).
-/

namespace Spimex

/-! ## Calendar model (Python `datetime` fragment)

Mirrors CPython's proleptic Gregorian calendar arithmetic
(`datetime._days_before_year`, `_days_in_month`, `_days_before_month`)
used by `datetime.replace` and `datetime` subtraction. -/

/-- Python `calendar.isleap` / `datetime._is_leap`. -/
def isLeap (y : Nat) : Bool :=
  y % 4 == 0 && (y % 100 != 0 || y % 400 == 0)

/-- Python `datetime._days_in_month y m` for `1 ≤ m ≤ 12`. -/
def daysInMonth (y m : Nat) : Nat :=
  if m == 2 then (if isLeap y then 29 else 28)
  else if m == 4 || m == 6 || m == 9 || m == 11 then 30
  else 31

/-- Days in all years strictly before year `y` (Python `_days_before_year`). -/
def daysBeforeYear (y : Nat) : Nat :=
  365 * (y - 1) + (y - 1) / 4 - (y - 1) / 100 + (y - 1) / 400

/-- Days in all months of year `y` strictly before month `m`
(Python `_days_before_month`, table `_DAYS_BEFORE_MONTH` plus leap fix-up). -/
def daysBeforeMonth (y m : Nat) : Nat :=
  let base :=
    match m with
    | 1 => 0 | 2 => 31 | 3 => 59 | 4 => 90 | 5 => 120 | 6 => 151
    | 7 => 181 | 8 => 212 | 9 => 243 | 10 => 273 | 11 => 304 | _ => 334
  base + (if m > 2 && isLeap y then 1 else 0)

/-- A Python `datetime.datetime` value (naive, no tzinfo — the code only uses
`datetime.now()` and query-string dates). Floating point plays no role here:
all `datetime` arithmetic in CPython is exact integer arithmetic on
microseconds, and `int(timedelta.total_seconds())` equals truncated division
of the microsecond difference by 10^6 for every difference below 2^53 µs. -/
@[ext]
structure DateTime where
  year : Nat
  month : Nat
  day : Nat
  hour : Nat
  minute : Nat
  second : Nat
  microsecond : Nat
deriving DecidableEq, Repr

/-- Range invariants CPython enforces on every constructed `datetime`. -/
def DateTime.Valid (t : DateTime) : Prop :=
  1 ≤ t.year ∧ t.year ≤ 9999 ∧
  1 ≤ t.month ∧ t.month ≤ 12 ∧
  1 ≤ t.day ∧ t.day ≤ daysInMonth t.year t.month ∧
  t.hour ≤ 23 ∧ t.minute ≤ 59 ∧ t.second ≤ 59 ∧ t.microsecond ≤ 999999

instance (t : DateTime) : Decidable t.Valid := by
  unfold DateTime.Valid; infer_instance

/-- Time-of-day of a `datetime`, in microseconds. Python's `time` comparison
`now.time() >= time(h, m)` is the lexicographic order on
(hour, minute, second, microsecond), equivalently the order on this value. -/
def todMicros (t : DateTime) : Nat :=
  ((t.hour * 3600 + t.minute * 60 + t.second) * 1000000) + t.microsecond

/-- Zero-based day index of a `datetime` (Python `toordinal() - 1`). -/
def dayIndex (t : DateTime) : Nat :=
  daysBeforeYear t.year + daysBeforeMonth t.year t.month + (t.day - 1)

/-- Absolute instant in microseconds since 0001-01-01T00:00:00.
`a - b` in Python (`timedelta`) equals `toMicros a - toMicros b` µs. -/
def toMicros (t : DateTime) : Nat :=
  dayIndex t * 86400000000 + todMicros t

/-! ## `RedisCache._get_ttl` (app/cache.py lines 20-45)

`settings.CACHE_RESET_HOUR` / `settings.CACHE_RESET_MINUTE` are passed
explicitly. `tomorrow.replace(day=tomorrow.day + 1)` raises `ValueError`
when `day + 1` exceeds the length of the current month; the embedding
returns `none` there. Otherwise the returned TTL is
`int((target - now).total_seconds())`: the microsecond difference divided
by 10^6, truncated toward zero (`Int.tdiv`). -/

/-- The configured reset time-of-day `time(reset_hour, reset_minute)`
in microseconds. -/
def targetMicros (resetHour resetMinute : Nat) : Nat :=
  (resetHour * 3600 + resetMinute * 60) * 1000000

/-- `RedisCache._get_ttl`, with `now` and the settings made explicit. -/
def rc_get_ttl (resetHour resetMinute : Nat) (now : DateTime) : Option Int :=
  if todMicros now ≥ targetMicros resetHour resetMinute then
    -- now.replace(hour=H, minute=M, second=0, microsecond=0), then
    -- .replace(day=day+1), which raises ValueError past the month's end
    if now.day + 1 ≤ daysInMonth now.year now.month then
      let tomorrow : DateTime :=
        { now with day := now.day + 1, hour := resetHour, minute := resetMinute,
                   second := 0, microsecond := 0 }
      some (((toMicros tomorrow : Int) - (toMicros now : Int)).tdiv 1000000)
    else
      none
  else
    let target : DateTime :=
      { now with hour := resetHour, minute := resetMinute,
                 second := 0, microsecond := 0 }
    some (((toMicros target : Int) - (toMicros now : Int)).tdiv 1000000)

/-! ## Record store and `TradingService` (app/services/trading.py)

`SpimexTradingResult.trading_date` is a SQL `DateTime` column; it is
modelled as an absolute timestamp in microseconds. The `volume`, `price`
and `total_value` columns are floating-point measures never examined by
any query in the service; they are omitted from the record model. The
store is a list of rows; SQL query clauses are modelled by their standard
semantics: `WHERE` filters, `ORDER BY ... DESC` sorts by the key
descending, `DISTINCT` deduplicates, `LIMIT n` takes a prefix (SQL applies
`WHERE` before `ORDER BY` before `LIMIT` regardless of the order the
builder methods are chained in). -/

/-- A row of `spimex_tradinf_result` (app/models/database.py), restricted to
the columns the queries touch. -/
structure TradingRecord where
  id : Nat
  trading_date : Nat
  oil_id : Int
  delivery_type_id : Int
  delivery_basis_id : Int
deriving DecidableEq, Repr

/-- Calendar day of a `trading_date` timestamp (used to state deduplication
by calendar date, which the spec asks of `get_last_trading_dates`). -/
def calendarDay (ts : Nat) : Nat := ts / 86400000000

/-- Insert into a list sorted descending by `key` (auxiliary to the model of
`ORDER BY key DESC`). -/
def insertDescBy {α : Type} (key : α → Nat) (x : α) : List α → List α
  | [] => [x]
  | y :: tl => if key x ≤ key y then y :: insertDescBy key x tl
               else x :: y :: tl

/-- Sort descending by `key`: the model of `ORDER BY key DESC`. -/
def sortDescBy {α : Type} (key : α → Nat) : List α → List α
  | [] => []
  | a :: l => insertDescBy key a (sortDescBy key l)

/-- The three optional equality filters, appended to the query exactly when
the corresponding argument `is not None` (trading.py lines 60-65, 95-100). -/
def matchesFilters (oil dt db : Option Int) (r : TradingRecord) : Bool :=
  (match oil with | none => true | some v => r.oil_id == v) &&
  (match dt with | none => true | some v => r.delivery_type_id == v) &&
  (match db with | none => true | some v => r.delivery_basis_id == v)

/-- `TradingService.get_dynamics`: rows with
`trading_date BETWEEN start_date AND end_date` (SQL `BETWEEN` is inclusive
at both ends) and all supplied filters, ordered by `trading_date` DESC. -/
def get_dynamics (store : List TradingRecord) (start_date end_date : Nat)
    (oil dt db : Option Int) : List TradingRecord :=
  sortDescBy TradingRecord.trading_date
    (store.filter (fun r =>
      decide (start_date ≤ r.trading_date) &&
      decide (r.trading_date ≤ end_date) &&
      matchesFilters oil dt db r))

/-- `TradingService.get_trading_result`: filtered rows ordered by
`trading_date` DESC, first `limit` rows. -/
def get_trading_result (store : List TradingRecord)
    (oil dt db : Option Int) (limit : Nat) : List TradingRecord :=
  (sortDescBy TradingRecord.trading_date
    (store.filter (matchesFilters oil dt db))).take limit

/-- `TradingService.get_last_trading_dates`:
`SELECT DISTINCT trading_date ORDER BY trading_date DESC LIMIT limit`.
`DISTINCT` deduplicates by the full column value (the timestamp), not by
calendar day. -/
def get_last_trading_dates (store : List TradingRecord) (limit : Nat) :
    List Nat :=
  (sortDescBy (fun d => d)
    ((store.map TradingRecord.trading_date).dedup)).take limit

/-! ## Cache-key derivation (main.py lines 81, 133, 183)

The handlers build cache keys with f-strings:
`f"trading_dates:{limit}"`,
`f"dynamics:{start_date.isoformat()}:{end_date.isoformat()}:{oil_id}:{delivery_type_id}:{delivery_basis_id}"`,
`f"trading_results:{oil_id}:{delivery_type_id}:{delivery_basis_id}:{limit}"`.
Interpolation renders an `int` as its decimal form, `None` as `"None"`, and
a naive `datetime` via `isoformat()` as `YYYY-MM-DDTHH:MM:SS[.ffffff]`
(fraction printed exactly when `microsecond != 0`). Keys are modelled as
`List Char`. -/

/-- Decimal digit character. -/
def digitChar (d : Nat) : Char := Char.ofNat (48 + d)

/-- Zero-padded fixed-width decimal rendering (`%0wd` for values < 10^w). -/
def padNum : Nat → Nat → List Char
  | 0, _ => []
  | w + 1, n => padNum w (n / 10) ++ [digitChar (n % 10)]

/-- Unpadded decimal rendering of a natural number (Python `str` on a
non-negative `int`). -/
def natChars (n : Nat) : List Char :=
  if n < 10 then [digitChar n]
  else natChars (n / 10) ++ [digitChar (n % 10)]
termination_by n
decreasing_by exact Nat.div_lt_self (by omega) (by decide)

/-- Python `str` of an `int` (minus sign for negatives). -/
def intChars (n : Int) : List Char :=
  if n < 0 then '-' :: natChars n.natAbs else natChars n.natAbs

/-- Python f-string interpolation of an `Optional[int]`: decimal digits or
the four characters `None`. -/
def optIntChars : Option Int → List Char
  | none => ['N', 'o', 'n', 'e']
  | some v => intChars v

/-- Date-through-hour segment of `isoformat()`: `YYYY-MM-DDTHH`
(the part before the first colon). -/
def segDate (t : DateTime) : List Char :=
  padNum 4 t.year ++ '-' ::
    (padNum 2 t.month ++ '-' :: (padNum 2 t.day ++ 'T' :: padNum 2 t.hour))

/-- Seconds segment of `isoformat()`: `SS` or `SS.ffffff`
(the part after the second colon). -/
def segSec (t : DateTime) : List Char :=
  padNum 2 t.second ++
    (if t.microsecond == 0 then [] else '.' :: padNum 6 t.microsecond)

/-- Python `datetime.isoformat()` on a naive value:
`YYYY-MM-DDTHH:MM:SS[.ffffff]`. -/
def isoChars (t : DateTime) : List Char :=
  segDate t ++ ':' :: (padNum 2 t.minute ++ ':' :: segSec t)

/-- Cache key of `get_last_trading_dates` (main.py line 81). -/
def cacheKeyDates (limit : Int) : List Char :=
  "trading_dates:".toList ++ intChars limit

/-- Cache key of `get_dynamics` (main.py line 133). -/
def cacheKeyDynamics (s e : DateTime) (oil dt db : Option Int) : List Char :=
  "dynamics:".toList ++ isoChars s ++ ':' :: (isoChars e ++ ':' ::
    (optIntChars oil ++ ':' :: (optIntChars dt ++ ':' :: optIntChars db)))

/-- Cache key of `get_trading_results` (main.py line 183). -/
def cacheKeyResults (oil dt db : Option Int) (limit : Int) : List Char :=
  "trading_results:".toList ++ optIntChars oil ++ ':' ::
    (optIntChars dt ++ ':' :: (optIntChars db ++ ':' :: intChars limit))

/-- Numeric value of a digit string (used to invert decimal rendering). -/
def digitsVal (l : List Char) : Nat :=
  l.foldl (fun a c => a * 10 + (c.toNat - 48)) 0

/-! ## Request handlers (main.py lines 70-208)

Each handler: look up the cache key; on a hit return the cached envelope;
on a miss run the service query, build the response envelope, call
`cache.set(cache_key, response)` — with no `try`/`except` around it — and
return the response. The cache lookup result and the outcome of the cache
write are passed in explicitly; an exception escaping `cache.set`
propagates out of the handler (`Except.error`). -/

/-- Response envelope of `/api/trading/dates`
(`{"dates": dates, "total": len(dates)}`). -/
structure DatesResponse where
  dates : List Nat
  total : Nat
deriving DecidableEq, Repr

/-- Response envelope of `/api/trading/dynamics`. -/
structure DynamicsResponse where
  result : List TradingRecord
  total : Nat
  start_date : Nat
  end_date : Nat
deriving DecidableEq, Repr

/-- Response envelope of `/api/trading/results`. -/
structure ResultsResponse where
  result : List TradingRecord
  total : Nat
deriving DecidableEq, Repr

/-- Handler of `/api/trading/dates` (main.py lines 70-101). -/
def handler_dates (cached : Option DatesResponse)
    (store : List TradingRecord) (limit : Nat)
    (setOutcome : Except String Unit) : Except String DatesResponse :=
  match cached with
  | some c => .ok c
  | none =>
    let dates := get_last_trading_dates store limit
    let response : DatesResponse := ⟨dates, dates.length⟩
    match setOutcome with
    | .error e => .error e
    | .ok _ => .ok response

/-- Handler of `/api/trading/dynamics` (main.py lines 106-161), including
the two validations that reject the request before store or cache are
touched. `timedelta.days` of `end - start` is floor division of the
microsecond difference by one day. -/
def handler_dynamics (cached : Option DynamicsResponse)
    (store : List TradingRecord) (start_date end_date : Nat)
    (oil dt db : Option Int)
    (setOutcome : Except String Unit) : Except String DynamicsResponse :=
  if start_date > end_date then .error "400: start after end"
  else if (end_date - start_date) / 86400000000 > 365 then
    .error "400: range over 365 days"
  else
    match cached with
    | some c => .ok c
    | none =>
      let results := get_dynamics store start_date end_date oil dt db
      let response : DynamicsResponse :=
        ⟨results, results.length, start_date, end_date⟩
      match setOutcome with
      | .error e => .error e
      | .ok _ => .ok response

/-- Handler of `/api/trading/results` (main.py lines 166-208). -/
def handler_results (cached : Option ResultsResponse)
    (store : List TradingRecord) (oil dt db : Option Int) (limit : Nat)
    (setOutcome : Except String Unit) : Except String ResultsResponse :=
  match cached with
  | some c => .ok c
  | none =>
    let results := get_trading_result store oil dt db limit
    let response : ResultsResponse := ⟨results, results.length⟩
    match setOutcome with
    | .error e => .error e
    | .ok _ => .ok response

/-! ## JSON serialization and the Redis cache (app/cache.py lines 47-78)

`set` stores `json.dumps(value, default=str)` under the key with
`setex(key, ttl, payload)`; `get` reads the raw string, treats a missing
or empty reply as absence (`if data:`), and returns `json.loads(data)`.
Values are modelled by `PyVal`: the JSON-native values plus `datetime`,
the one non-native type the handlers put into response envelopes, which
`default=str` renders via Python `str()`. `json.dumps` uses
`ensure_ascii=True` (every char outside printable ASCII becomes `\uXXXX`,
astral chars a surrogate pair) and separators `", "` / `": "`; floats are
outside the model. `json.loads` is modelled by a fuelled recursive-descent
parser accepting exactly such documents. -/

/-- A Python value storable in the cache. Object keys are strings, as in
every envelope the handlers build. -/
inductive PyVal where
  | null
  | bool (b : Bool)
  | int (n : Int)
  | str (s : List Char)
  | dt (t : DateTime)
  | arr (xs : List PyVal)
  | obj (fields : List (List Char × PyVal))

/-- Python `str` of a `datetime`: `YYYY-MM-DD HH:MM:SS[.ffffff]`. -/
def strOfDateTime (t : DateTime) : List Char :=
  padNum 4 t.year ++ '-' ::
    (padNum 2 t.month ++ '-' :: (padNum 2 t.day ++ ' ' ::
      (padNum 2 t.hour ++ ':' :: (padNum 2 t.minute ++ ':' ::
        (padNum 2 t.second ++
          (if t.microsecond == 0 then []
           else '.' :: padNum 6 t.microsecond))))))

/-- Lowercase hexadecimal digit. -/
def hexDigitChar (d : Nat) : Char :=
  if d < 10 then Char.ofNat (48 + d) else Char.ofNat (87 + d)

/-- Four-digit lowercase hex rendering (`\\u%04x`), for `n < 65536`. -/
def hex4 (n : Nat) : List Char :=
  [hexDigitChar (n / 4096 % 16), hexDigitChar (n / 256 % 16),
   hexDigitChar (n / 16 % 16), hexDigitChar (n % 16)]

/-- `json.dumps` escaping of one character (`ensure_ascii=True`): `"` and
`\\` and the named control escapes, `\\uXXXX` for the rest outside
printable ASCII, surrogate pairs beyond the BMP. -/
def escChar (c : Char) : List Char :=
  if c = '"' then ['\\', '"']
  else if c = '\\' then ['\\', '\\']
  else if c = '\n' then ['\\', 'n']
  else if c = '\r' then ['\\', 'r']
  else if c = '\t' then ['\\', 't']
  else if c.toNat = 8 then ['\\', 'b']
  else if c.toNat = 12 then ['\\', 'f']
  else if c.toNat < 32 ∨ 127 ≤ c.toNat then
    if c.toNat < 65536 then '\\' :: 'u' :: hex4 c.toNat
    else
      ('\\' :: 'u' :: hex4 (55296 + (c.toNat - 65536) / 1024)) ++
        ('\\' :: 'u' :: hex4 (56320 + (c.toNat - 65536) % 1024))
  else [c]

/-- `json.dumps` escaping of a string body. -/
def escStr : List Char → List Char
  | [] => []
  | c :: rest => escChar c ++ escStr rest

mutual

/-- `json.dumps(value, default=str)` with the default separators
`", "` and `": "`. -/
def dumpsVal : PyVal → List Char
  | .null => 'n' :: ['u', 'l', 'l']
  | .bool true => 't' :: ['r', 'u', 'e']
  | .bool false => 'f' :: ['a', 'l', 's', 'e']
  | .int n => intChars n
  | .str s => '"' :: (escStr s ++ ['"'])
  | .dt t => '"' :: (escStr (strOfDateTime t) ++ ['"'])
  | .arr xs => '[' :: (dumpsArr xs ++ [']'])
  | .obj fs => '{' :: (dumpsObj fs ++ ['}'])

/-- Array items joined by `", "`. -/
def dumpsArr : List PyVal → List Char
  | [] => []
  | [x] => dumpsVal x
  | x :: y :: rest => dumpsVal x ++ ',' :: ' ' :: dumpsArr (y :: rest)

/-- Object entries `"key": value` joined by `", "`. -/
def dumpsObj : List (List Char × PyVal) → List Char
  | [] => []
  | [(k, v)] => '"' :: (escStr k ++ '"' :: ':' :: ' ' :: dumpsVal v)
  | (k, v) :: f :: rest =>
    '"' :: (escStr k ++ '"' :: ':' :: ' ' :: dumpsVal v) ++
      ',' :: ' ' :: dumpsObj (f :: rest)

end

mutual

/-- A value is JSON-native when no `datetime` occurs in it: exactly the
values `json.dumps`/`json.loads` round-trip unchanged. -/
def jsonNativeVal : PyVal → Bool
  | .null => true
  | .bool _ => true
  | .int _ => true
  | .str _ => true
  | .dt _ => false
  | .arr xs => jsonNativeArr xs
  | .obj fs => jsonNativeObj fs

/-- All array items JSON-native. -/
def jsonNativeArr : List PyVal → Bool
  | [] => true
  | x :: rest => jsonNativeVal x && jsonNativeArr rest

/-- All object values JSON-native. -/
def jsonNativeObj : List (List Char × PyVal) → Bool
  | [] => true
  | (_, v) :: rest => jsonNativeVal v && jsonNativeObj rest

end

mutual

/-- Fuel needed by the parser to read back a dumped value. -/
def needVal : PyVal → Nat
  | .null => 1
  | .bool _ => 1
  | .int _ => 1
  | .str s => s.length + 2
  | .dt t => (strOfDateTime t).length + 2
  | .arr [] => 1
  | .arr xs => needArr xs + 1
  | .obj [] => 1
  | .obj fs => needObj fs + 1

/-- Fuel needed to read back a dumped item list. -/
def needArr : List PyVal → Nat
  | [] => 1
  | [x] => needVal x + 1
  | x :: y :: rest => max (needVal x) (needArr (y :: rest)) + 1

/-- Fuel needed to read back a dumped entry list. -/
def needObj : List (List Char × PyVal) → Nat
  | [] => 1
  | [(k, v)] => max (k.length + 2) (needVal v) + 1
  | (k, v) :: f :: rest =>
    max (max (k.length + 2) (needVal v)) (needObj (f :: rest)) + 1

end

/-- Hexadecimal digit value (`json.loads` accepts both cases). -/
def parseHex (c : Char) : Option Nat :=
  if 48 ≤ c.toNat ∧ c.toNat ≤ 57 then some (c.toNat - 48)
  else if 97 ≤ c.toNat ∧ c.toNat ≤ 102 then some (c.toNat - 87)
  else if 65 ≤ c.toNat ∧ c.toNat ≤ 70 then some (c.toNat - 55)
  else none

/-- Read four hex digits. -/
def readHex4 : List Char → Option (Nat × List Char)
  | h1 :: h2 :: h3 :: h4 :: rest =>
    match parseHex h1, parseHex h2, parseHex h3, parseHex h4 with
    | some a, some b, some c, some d =>
      some ((((a * 16 + b) * 16 + c) * 16 + d), rest)
    | _, _, _, _ => none
  | _ => none

/-- Named escapes of the JSON grammar. -/
def escDecode (e : Char) : Option Char :=
  if e = '"' then some '"'
  else if e = '\\' then some '\\'
  else if e = '/' then some '/'
  else if e = 'b' then some (Char.ofNat 8)
  else if e = 'f' then some (Char.ofNat 12)
  else if e = 'n' then some '\n'
  else if e = 'r' then some '\r'
  else if e = 't' then some '\t'
  else none

/-- String-body parser: input after the opening quote, result paired with
the input remaining after the closing quote. Surrogate pairs are
recombined; a lone surrogate escape is rejected. -/
def parseStr : Nat → List Char → Option (List Char × List Char)
  | 0, _ => none
  | _ + 1, [] => none
  | fuel + 1, c :: rest =>
    if c = '"' then some ([], rest)
    else if c = '\\' then
      match rest with
      | [] => none
      | e :: rest₁ =>
        if e = 'u' then
          match readHex4 rest₁ with
          | none => none
          | some (v, rest₂) =>
            if 55296 ≤ v ∧ v ≤ 56319 then
              match rest₂ with
              | '\\' :: 'u' :: rest₃ =>
                match readHex4 rest₃ with
                | none => none
                | some (w, rest₄) =>
                  if 56320 ≤ w ∧ w ≤ 57343 then
                    (parseStr fuel rest₄).map (fun p =>
                      (Char.ofNat ((v - 55296) * 1024 + (w - 56320) + 65536)
                        :: p.1, p.2))
                  else none
              | _ => none
            else if 56320 ≤ v ∧ v ≤ 57343 then none
            else (parseStr fuel rest₂).map (fun p => (Char.ofNat v :: p.1, p.2))
        else
          match escDecode e with
          | none => none
          | some d => (parseStr fuel rest₁).map (fun p => (d :: p.1, p.2))
    else (parseStr fuel rest).map (fun p => (c :: p.1, p.2))

/-- Greedy digit run, as `json`'s number grammar reads it. -/
def parseNat (l : List Char) : Option (Nat × List Char) :=
  let ds := l.takeWhile (fun c => c.isDigit)
  if ds.isEmpty then none
  else some (digitsVal ds, l.dropWhile (fun c => c.isDigit))

/-- JSON integer (optional minus sign; the envelopes hold no floats). -/
def parseInt (l : List Char) : Option (Int × List Char) :=
  match l with
  | [] => none
  | c :: rest =>
    if c = '-' then (parseNat rest).map (fun p => (-(p.1 : Int), p.2))
    else (parseNat (c :: rest)).map (fun p => ((p.1 : Int), p.2))

mutual

/-- Recursive-descent JSON value parser (model of `json.loads`), fuelled
for structural termination. It accepts the exact documents `dumpsVal`
produces. -/
def parseVal : Nat → List Char → Option (PyVal × List Char)
  | 0, _ => none
  | fuel + 1, l =>
    match l with
    | [] => none
    | c :: rest =>
      if c = '"' then (parseStr fuel rest).map (fun p => (.str p.1, p.2))
      else if c = '[' then
        match rest with
        | [] => none
        | r :: rest' =>
          if r = ']' then some (.arr [], rest')
          else (parseArr fuel (r :: rest')).map (fun p => (.arr p.1, p.2))
      else if c = '{' then
        match rest with
        | [] => none
        | r :: rest' =>
          if r = '}' then some (.obj [], rest')
          else (parseObj fuel (r :: rest')).map (fun p => (.obj p.1, p.2))
      else if c = 'n' then
        match rest with
        | 'u' :: 'l' :: 'l' :: rest₁ => some (.null, rest₁)
        | _ => none
      else if c = 't' then
        match rest with
        | 'r' :: 'u' :: 'e' :: rest₁ => some (.bool true, rest₁)
        | _ => none
      else if c = 'f' then
        match rest with
        | 'a' :: 'l' :: 's' :: 'e' :: rest₁ => some (.bool false, rest₁)
        | _ => none
      else (parseInt (c :: rest)).map (fun p => (.int p.1, p.2))

/-- Items of a non-empty array, up to and including the closing `]`. -/
def parseArr : Nat → List Char → Option (List PyVal × List Char)
  | 0, _ => none
  | fuel + 1, l =>
    match parseVal fuel l with
    | none => none
    | some (v, rest) =>
      match rest with
      | ']' :: rest₁ => some ([v], rest₁)
      | ',' :: ' ' :: rest₁ =>
        (parseArr fuel rest₁).map (fun p => (v :: p.1, p.2))
      | _ => none

/-- Entries of a non-empty object, up to and including the closing `}`. -/
def parseObj : Nat → List Char → Option (List (List Char × PyVal) × List Char)
  | 0, _ => none
  | fuel + 1, l =>
    match l with
    | '"' :: rest =>
      match parseStr fuel rest with
      | none => none
      | some (k, rest₁) =>
        match rest₁ with
        | ':' :: ' ' :: rest₂ =>
          match parseVal fuel rest₂ with
          | none => none
          | some (v, rest₃) =>
            match rest₃ with
            | '}' :: rest₄ => some ([(k, v)], rest₄)
            | ',' :: ' ' :: rest₄ =>
              (parseObj fuel rest₄).map (fun p => ((k, v) :: p.1, p.2))
            | _ => none
        | _ => none
    | _ => none

end

/-- `json.loads`: parse one value consuming the entire document. -/
def loads (l : List Char) : Option PyVal :=
  match parseVal (l.length + 1) l with
  | some (v, []) => some v
  | _ => none

/-- State of the Redis database: payload string and absolute expiry instant
(seconds) per key. -/
def RedisState := List Char → Option (List Char × Int)

/-- The empty Redis database. -/
def emptyState : RedisState := fun _ => none

/-- `redis.setex(key, ttl, payload)` issued at instant `tnow`: stores the
payload and schedules expiry `ttl` seconds later, overwriting any previous
entry. -/
def redisSetex (st : RedisState) (tnow : Int) (k : List Char) (ttl : Int)
    (payload : List Char) : RedisState :=
  fun k' => if k' = k then some (payload, tnow + ttl) else st k'

/-- `redis.get(key)` at instant `tnow`: the payload while the key has not
expired, `nil` afterwards (Redis enforces expiry itself). -/
def redisGet (st : RedisState) (tnow : Int) (k : List Char) :
    Option (List Char) :=
  match st k with
  | some (payload, deadline) => if tnow < deadline then some payload else none
  | none => none

/-- `redis.delete(key)`. -/
def redisDel (st : RedisState) (k : List Char) : RedisState :=
  fun k' => if k' = k then none else st k'

/-- `RedisCache.set` (app/cache.py lines 54-70) issued at instant `tnow`
with resolved TTL `ttl` (the explicit argument when supplied, otherwise
`_get_ttl()`): stores `json.dumps(value, default=str)`. -/
def rc_set (st : RedisState) (tnow : Int) (k : List Char) (v : PyVal)
    (ttl : Int) : RedisState :=
  redisSetex st tnow k ttl (dumpsVal v)

/-- `RedisCache.get` (app/cache.py lines 47-52): `if data:` treats an
empty reply as absence, otherwise the reply is `json.loads`-decoded (a
decode failure, impossible for payloads the cache itself wrote, is
modelled as absence). -/
def rc_get (st : RedisState) (tnow : Int) (k : List Char) : Option PyVal :=
  match redisGet st tnow k with
  | none => none
  | some data => if data.isEmpty then none else loads data

/-- `RedisCache.invalidate_key` (app/cache.py lines 76-78). -/
def rc_invalidate_key (st : RedisState) (k : List Char) : RedisState :=
  redisDel st k

/-- The input after a serialized number never continues with a digit (the
number grammar is greedy). -/
def headNotDigit : List Char → Prop
  | [] => True
  | c :: _ => c.isDigit = false

instance (l : List Char) : Decidable (headNotDigit l) := by
  cases l <;> unfold headNotDigit <;> infer_instance

/-! ## Properties of `_get_ttl` -/

private lemma tod_lt_day (t : DateTime) (hv : t.Valid) :
    todMicros t < 86400000000 := by
  obtain ⟨_, _, _, _, _, _, h7, h8, h9, h10⟩ := hv
  unfold todMicros
  omega

private lemma target_lt_day (H M : Nat) (hH : H ≤ 23) (hM : M ≤ 59) :
    targetMicros H M < 86400000000 := by
  unfold targetMicros
  omega

/-- Whenever `_get_ttl` returns normally, the value returned is the remaining
time to the next reset instant — an absolute instant of the form
`d·86400000000 + targetMicros` µs lying in `(now, now + 24h]` — in whole
seconds truncated. -/
private lemma ttl_some (H M : Nat) (now : DateTime) (t : Int)
    (hv : now.Valid) (hH : H ≤ 23) (hM : M ≤ 59)
    (ht : rc_get_ttl H M now = some t) :
    ∃ d : Nat,
      toMicros now < d * 86400000000 + targetMicros H M ∧
      d * 86400000000 + targetMicros H M ≤ toMicros now + 86400000000 ∧
      t = ((d * 86400000000 + targetMicros H M - toMicros now) / 1000000 : Nat) := by
  have htod := tod_lt_day now hv
  have htgt := target_lt_day H M hH hM
  have hx : toMicros now = dayIndex now * 86400000000 + todMicros now := rfl
  obtain ⟨_, _, _, _, hday, _, _, _, _, _⟩ := hv
  unfold rc_get_ttl at ht
  split at ht
  case isTrue hge =>
    split at ht
    case isTrue hroll =>
      have ht' : ((toMicros
          { now with day := now.day + 1, hour := H, minute := M,
                     second := 0, microsecond := 0 } : Int) -
          (toMicros now : Int)).tdiv 1000000 = t := by
        simpa using ht
      have hkey : toMicros
          { now with day := now.day + 1, hour := H, minute := M,
                     second := 0, microsecond := 0 } =
          (dayIndex now + 1) * 86400000000 + targetMicros H M := by
        simp only [toMicros, dayIndex, todMicros, targetMicros]
        omega
      refine ⟨dayIndex now + 1, by omega, by omega, ?_⟩
      have hle : toMicros now ≤
          (dayIndex now + 1) * 86400000000 + targetMicros H M := by omega
      rw [← ht', hkey, ← Nat.cast_sub hle]
      exact_mod_cast (Int.ofNat_tdiv _ 1000000).symm
    case isFalse => exact absurd ht (by simp)
  case isFalse hlt =>
    have ht' : ((toMicros
        { now with hour := H, minute := M,
                   second := 0, microsecond := 0 } : Int) -
        (toMicros now : Int)).tdiv 1000000 = t := by
      simpa using ht
    have hkey : toMicros
        { now with hour := H, minute := M, second := 0, microsecond := 0 } =
        dayIndex now * 86400000000 + targetMicros H M := by
      simp only [toMicros, dayIndex, todMicros, targetMicros]
      omega
    refine ⟨dayIndex now, by omega, by omega, ?_⟩
    have hle : toMicros now ≤
        dayIndex now * 86400000000 + targetMicros H M := by omega
    rw [← ht', hkey, ← Nat.cast_sub hle]
    exact_mod_cast (Int.ofNat_tdiv _ 1000000).symm

/-- C1: whenever `_get_ttl` returns a value, the TTL is non-negative and at
most 86400 seconds, and at the exact reset instant (when the day increment
does not fail) it is the full 86400 seconds. The original claim's strict
positivity is refuted by `claim1_counterexample`: within the final second
before the reset instant, truncation yields TTL = 0. -/
theorem claim1_ttl_bounds (H M : Nat) (now : DateTime)
    (hv : now.Valid) (hH : H ≤ 23) (hM : M ≤ 59) :
    (∀ t : Int, rc_get_ttl H M now = some t → 0 ≤ t ∧ t ≤ 86400) ∧
    (todMicros now = targetMicros H M →
      ∀ t : Int, rc_get_ttl H M now = some t → t = 86400) := by
  have hx : toMicros now = dayIndex now * 86400000000 + todMicros now := rfl
  constructor
  · intro t ht
    obtain ⟨d, h1, h2, h3⟩ := ttl_some H M now t hv hH hM ht
    subst h3
    refine ⟨by positivity, ?_⟩
    have hb : (d * 86400000000 + targetMicros H M - toMicros now) / 1000000
        ≤ 86400 := by omega
    exact_mod_cast hb
  · intro htod t ht
    obtain ⟨d, h1, h2, h3⟩ := ttl_some H M now t hv hH hM ht
    rw [h3]
    have hδ : d * 86400000000 + targetMicros H M - toMicros now
        = 86400000000 := by
      rw [hx, htod] at h1 h2 ⊢
      omega
    rw [hδ]
    decide

/-- C1, counterexample to the claim as stated: with reset 14:11, at
`now = 2025-01-01T14:10:59.500000` the algorithm returns TTL = 0, which is
not strictly positive. -/
theorem claim1_counterexample :
    rc_get_ttl 14 11 ⟨2025, 1, 1, 14, 10, 59, 500000⟩ = some 0 := by decide

/-- C1, witness: the amended theorem instantiated at the exact reset instant
`2025-01-01T14:11:00` with reset 14:11. -/
theorem claim1_witness :
    (∀ t : Int, rc_get_ttl 14 11 ⟨2025, 1, 1, 14, 11, 0, 0⟩ = some t →
      0 ≤ t ∧ t ≤ 86400) ∧
    (todMicros ⟨2025, 1, 1, 14, 11, 0, 0⟩ = targetMicros 14 11 →
      ∀ t : Int, rc_get_ttl 14 11 ⟨2025, 1, 1, 14, 11, 0, 0⟩ = some t →
        t = 86400) :=
  claim1_ttl_bounds 14 11 ⟨2025, 1, 1, 14, 11, 0, 0⟩
    (by decide) (by decide) (by decide)

/-- C2: the claim says the at-or-past-reset branch always returns normally,
with calendar-safe rolling of month and year boundaries. The code instead
computes `tomorrow.replace(day=tomorrow.day + 1)`, which raises `ValueError`
on the last day of any month: at `now = 2025-01-31T15:00:00` with reset
14:11, `_get_ttl` fails instead of returning 83460. -/
theorem claim2_month_end_failure :
    rc_get_ttl 14 11 ⟨2025, 1, 31, 15, 0, 0, 0⟩ = none := by decide

/-- C5: the concrete scenario from the spec: with reset 14:11,
`now = 2025-01-01T10:00:00` gives TTL = 15060 s and
`now = 2025-01-01T15:00:00` gives TTL = 83460 s. -/
theorem claim5_concrete_scenario :
    rc_get_ttl 14 11 ⟨2025, 1, 1, 10, 0, 0, 0⟩ = some 15060 ∧
    rc_get_ttl 14 11 ⟨2025, 1, 1, 15, 0, 0, 0⟩ = some 83460 := by decide

/-- C6: holding the reset configuration fixed, the TTL is monotonically
non-increasing as `now` advances, provided no reset instant `r` with
`now1 < r ≤ now2` lies in the advance (half-open window); at the reset
instant itself the TTL jumps back to the full 86400 s. The original claim's
condition — no reset instant *strictly* between `now1` and `now2` — is
refuted by `claim6_counterexample`: the jump already happens when `now2`
equals the reset instant. -/
theorem claim6_ttl_monotone (H M : Nat) (hH : H ≤ 23) (hM : M ≤ 59) :
    (∀ n1 n2 : DateTime, ∀ t1 t2 : Int, n1.Valid → n2.Valid →
      rc_get_ttl H M n1 = some t1 → rc_get_ttl H M n2 = some t2 →
      toMicros n1 ≤ toMicros n2 →
      (∀ d : Nat, ¬(toMicros n1 < d * 86400000000 + targetMicros H M ∧
                    d * 86400000000 + targetMicros H M ≤ toMicros n2)) →
      t2 ≤ t1) ∧
    (∀ now : DateTime, ∀ t : Int, now.Valid →
      todMicros now = targetMicros H M →
      rc_get_ttl H M now = some t → t = 86400) := by
  constructor
  · intro n1 n2 t1 t2 hv1 hv2 h1 h2 hle hno
    obtain ⟨d1, a1, b1, e1⟩ := ttl_some H M n1 t1 hv1 hH hM h1
    obtain ⟨d2, a2, b2, e2⟩ := ttl_some H M n2 t2 hv2 hH hM h2
    have hgt := hno d1
    have hd : d1 = d2 := by omega
    subst hd
    rw [e1, e2]
    have hmono : (d1 * 86400000000 + targetMicros H M - toMicros n2) / 1000000
        ≤ (d1 * 86400000000 + targetMicros H M - toMicros n1) / 1000000 :=
      Nat.div_le_div_right (by omega)
    exact_mod_cast hmono
  · intro now t hv htod ht
    have hx : toMicros now = dayIndex now * 86400000000 + todMicros now := rfl
    obtain ⟨d, h1, h2, h3⟩ := ttl_some H M now t hv hH hM ht
    rw [h3]
    have hδ : d * 86400000000 + targetMicros H M - toMicros now
        = 86400000000 := by
      rw [hx, htod] at h1 h2 ⊢
      omega
    rw [hδ]
    decide

/-- C6, counterexample to the claim as stated: with reset 14:11, take
`now1 = 2025-01-01T14:10:50` and `now2 = 2025-01-01T14:11:00`. No reset
instant lies strictly between them (the only nearby one *is* `now2`), yet
TTL(now2) = 86400 > 10 = TTL(now1). -/
theorem claim6_counterexample :
    toMicros ⟨2025, 1, 1, 14, 10, 50, 0⟩ ≤ toMicros ⟨2025, 1, 1, 14, 11, 0, 0⟩ ∧
    (∀ d : Nat,
      ¬(toMicros ⟨2025, 1, 1, 14, 10, 50, 0⟩ <
          d * 86400000000 + targetMicros 14 11 ∧
        d * 86400000000 + targetMicros 14 11 <
          toMicros ⟨2025, 1, 1, 14, 11, 0, 0⟩)) ∧
    rc_get_ttl 14 11 ⟨2025, 1, 1, 14, 10, 50, 0⟩ = some 10 ∧
    rc_get_ttl 14 11 ⟨2025, 1, 1, 14, 11, 0, 0⟩ = some 86400 ∧
    ¬((86400 : Int) ≤ 10) := by
  refine ⟨by decide, ?_, by decide, by decide, by decide⟩
  intro d
  have h1 : toMicros (⟨2025, 1, 1, 14, 10, 50, 0⟩ : DateTime)
      = 63871337450000000 := by decide
  have h2 : toMicros (⟨2025, 1, 1, 14, 11, 0, 0⟩ : DateTime)
      = 63871337460000000 := by decide
  have h3 : targetMicros 14 11 = 51060000000 := by decide
  rw [h1, h2, h3]
  omega

/-- C6, witness: the amended monotonicity applied at
`now1 = 2025-01-01T10:00:00`, `now2 = 2025-01-01T11:00:00` with reset 14:11,
where TTL drops from 15060 to 11460. -/
theorem claim6_witness : (11460 : Int) ≤ 15060 := by
  refine (claim6_ttl_monotone 14 11 (by decide) (by decide)).1
    ⟨2025, 1, 1, 10, 0, 0, 0⟩ ⟨2025, 1, 1, 11, 0, 0, 0⟩ 15060 11460
    (by decide) (by decide) (by decide) (by decide) (by decide) ?_
  intro d
  have h1 : toMicros (⟨2025, 1, 1, 10, 0, 0, 0⟩ : DateTime)
      = 63871322400000000 := by decide
  have h2 : toMicros (⟨2025, 1, 1, 11, 0, 0, 0⟩ : DateTime)
      = 63871326000000000 := by decide
  have h3 : targetMicros 14 11 = 51060000000 := by decide
  rw [h1, h2, h3]
  omega

/-! ## Properties of the query service -/

private lemma perm_insertDescBy {α : Type} (key : α → Nat) (a : α)
    (l : List α) : List.Perm (insertDescBy key a l) (a :: l) := by
  induction l with
  | nil => exact List.Perm.refl _
  | cons b l ih =>
    unfold insertDescBy
    split
    · exact (ih.cons b).trans (List.Perm.swap a b l)
    · exact List.Perm.refl _

private lemma perm_sortDescBy {α : Type} (key : α → Nat) (l : List α) :
    List.Perm (sortDescBy key l) l := by
  induction l with
  | nil => exact List.Perm.refl _
  | cons a l ih =>
    exact (perm_insertDescBy key a (sortDescBy key l)).trans (ih.cons a)

private lemma mem_sortDescBy {α : Type} {key : α → Nat} {a : α} {l : List α} :
    a ∈ sortDescBy key l ↔ a ∈ l :=
  (perm_sortDescBy key l).mem_iff

private lemma sorted_insertDescBy {α : Type} (key : α → Nat) (a : α)
    (l : List α) (h : l.Pairwise (fun x y => key y ≤ key x)) :
    (insertDescBy key a l).Pairwise (fun x y => key y ≤ key x) := by
  induction l with
  | nil => simp [insertDescBy]
  | cons b l ih =>
    rw [List.pairwise_cons] at h
    obtain ⟨hb, hl⟩ := h
    unfold insertDescBy
    split
    case isTrue hab =>
      rw [List.pairwise_cons]
      refine ⟨?_, ih hl⟩
      intro y hy
      rw [(perm_insertDescBy key a l).mem_iff] at hy
      rcases List.mem_cons.mp hy with rfl | hy
      · exact hab
      · exact hb y hy
    case isFalse hab =>
      rw [List.pairwise_cons]
      refine ⟨?_, List.pairwise_cons.mpr ⟨hb, hl⟩⟩
      intro y hy
      rcases List.mem_cons.mp hy with rfl | hy
      · omega
      · exact le_trans (hb y hy) (by omega)

private lemma sorted_sortDescBy {α : Type} (key : α → Nat) (l : List α) :
    (sortDescBy key l).Pairwise (fun x y => key y ≤ key x) := by
  induction l with
  | nil => simp [sortDescBy]
  | cons a l ih => exact sorted_insertDescBy key a _ ih

/-- C7: every record returned by `get_dynamics` has
`start_date ≤ trading_date ≤ end_date`; the result is ordered by
`trading_date` descending; and conversely every stored record inside the
inclusive range that passes the filters — including one dated exactly
`start_date` or exactly `end_date` — appears in the result. -/
theorem claim7_dynamics_range (store : List TradingRecord)
    (s e : Nat) (oil dt db : Option Int) :
    (∀ r ∈ get_dynamics store s e oil dt db,
      s ≤ r.trading_date ∧ r.trading_date ≤ e) ∧
    (get_dynamics store s e oil dt db).Pairwise
      (fun a b => b.trading_date ≤ a.trading_date) ∧
    (∀ r ∈ store, s ≤ r.trading_date → r.trading_date ≤ e →
      matchesFilters oil dt db r = true →
      r ∈ get_dynamics store s e oil dt db) := by
  refine ⟨?_, sorted_sortDescBy _ _, ?_⟩
  · intro r hr
    rw [get_dynamics, mem_sortDescBy, List.mem_filter] at hr
    have := hr.2
    simp only [Bool.and_eq_true, decide_eq_true_eq] at this
    exact ⟨this.1.1, this.1.2⟩
  · intro r hr h1 h2 h3
    rw [get_dynamics, mem_sortDescBy, List.mem_filter]
    refine ⟨hr, ?_⟩
    simp only [Bool.and_eq_true, decide_eq_true_eq]
    exact ⟨⟨h1, h2⟩, h3⟩

/-- C7, witness: a record dated exactly at both bounds of the range
`[50, 50]` is included, instantiating the inclusivity direction. -/
theorem claim7_witness :
    (⟨1, 50, 1, 2, 3⟩ : TradingRecord) ∈
      get_dynamics [⟨1, 50, 1, 2, 3⟩] 50 50 none none none :=
  (claim7_dynamics_range [⟨1, 50, 1, 2, 3⟩] 50 50 none none none).2.2
    ⟨1, 50, 1, 2, 3⟩ (by decide) (by decide) (by decide) (by decide)

/-- C8: `matchesFilters` is the conjunction of the supplied equality
filters (`none` matches everything); every record returned by
`get_dynamics` or `get_trading_result` satisfies it; and a record failing
any supplied filter is excluded from both results. -/
theorem claim8_conjunctive_filters (store : List TradingRecord)
    (s e : Nat) (oil dt db : Option Int) (limit : Nat) :
    (∀ r : TradingRecord, matchesFilters oil dt db r = true ↔
      ((∀ v, oil = some v → r.oil_id = v) ∧
       (∀ v, dt = some v → r.delivery_type_id = v) ∧
       (∀ v, db = some v → r.delivery_basis_id = v))) ∧
    (∀ r ∈ get_dynamics store s e oil dt db,
      matchesFilters oil dt db r = true) ∧
    (∀ r ∈ get_trading_result store oil dt db limit,
      matchesFilters oil dt db r = true) ∧
    (∀ r : TradingRecord, matchesFilters none none none r = true) ∧
    (∀ r : TradingRecord, matchesFilters oil dt db r = false →
      r ∉ get_dynamics store s e oil dt db ∧
      r ∉ get_trading_result store oil dt db limit) := by
  have hdyn : ∀ r ∈ get_dynamics store s e oil dt db,
      matchesFilters oil dt db r = true := by
    intro r hr
    rw [get_dynamics, mem_sortDescBy, List.mem_filter] at hr
    have := hr.2
    simp only [Bool.and_eq_true] at this
    exact this.2
  have hres : ∀ r ∈ get_trading_result store oil dt db limit,
      matchesFilters oil dt db r = true := by
    intro r hr
    have hr' := List.take_subset _ _ hr
    rw [mem_sortDescBy, List.mem_filter] at hr'
    exact hr'.2
  refine ⟨?_, hdyn, hres, ?_, ?_⟩
  · intro r
    unfold matchesFilters
    rcases oil with _ | vo <;> rcases dt with _ | vt <;> rcases db with _ | vb <;>
      simp [and_assoc]
  · intro r
    rfl
  · intro r hf
    constructor
    · intro hmem
      rw [hdyn r hmem] at hf
      exact Bool.noConfusion hf
    · intro hmem
      rw [hres r hmem] at hf
      exact Bool.noConfusion hf

/-- C8, witness: with filter `oil_id = 1` supplied, the matching record is
characterised by the equivalence, instantiated at a concrete record. -/
theorem claim8_witness :
    matchesFilters (some 1) none none ⟨1, 50, 1, 2, 3⟩ = true :=
  ((claim8_conjunctive_filters [] 0 0 (some 1) none none 0).1
    ⟨1, 50, 1, 2, 3⟩).mpr (by simp)

/-- C9: what `get_last_trading_dates` actually guarantees: the returned
timestamps are pairwise distinct (deduplicated by the full `trading_date`
value), sorted strictly descending, and number at most `limit`. The
original claim's deduplication *by calendar date* is refuted by
`claim9_counterexample`: two records on the same calendar day with
different times of day both survive `DISTINCT`. -/
theorem claim9_last_dates (store : List TradingRecord) (limit : Nat) :
    (get_last_trading_dates store limit).Nodup ∧
    (get_last_trading_dates store limit).Pairwise (fun a b => b < a) ∧
    (get_last_trading_dates store limit).length ≤ limit := by
  have hnd : (sortDescBy (fun d => d)
      ((store.map TradingRecord.trading_date).dedup)).Nodup :=
    ((perm_sortDescBy _ _).nodup_iff).mpr (List.nodup_dedup _)
  have htake : (get_last_trading_dates store limit).Nodup :=
    hnd.sublist (List.take_sublist _ _)
  refine ⟨htake, ?_, List.length_take_le _ _⟩
  have hsorted : (get_last_trading_dates store limit).Pairwise
      (fun a b => b ≤ a) :=
    (sorted_sortDescBy (fun d => d) _).sublist (List.take_sublist _ _)
  have hne : (get_last_trading_dates store limit).Pairwise (fun a b => a ≠ b) :=
    htake
  exact (hsorted.and hne).imp (fun h => lt_of_le_of_ne h.1 (Ne.symm h.2))

/-- C9, counterexample to the claim as stated: two records share the
calendar day (timestamps 10:00 and 12:00 of day 0) but differ as
timestamps, so both survive `DISTINCT trading_date` and the result
contains a duplicate calendar date. -/
theorem claim9_counterexample :
    get_last_trading_dates
      [⟨1, 36000000000, 1, 1, 1⟩, ⟨2, 43200000000, 1, 1, 1⟩] 10 =
      [43200000000, 36000000000] ∧
    calendarDay 43200000000 = calendarDay 36000000000 ∧
    ¬((get_last_trading_dates
        [⟨1, 36000000000, 1, 1, 1⟩, ⟨2, 43200000000, 1, 1, 1⟩] 10).map
          calendarDay).Nodup := by
  refine ⟨by decide, by decide, by decide⟩

/-! ## Properties of the cache-key derivation -/

private lemma digitChar_isDigit : ∀ d, d < 10 → (digitChar d).isDigit = true := by
  decide

private lemma digitChar_toNat : ∀ d, d < 10 → (digitChar d).toNat = 48 + d := by
  decide

private lemma digitChar_inj {d1 d2 : Nat} (h1 : d1 < 10) (h2 : d2 < 10)
    (h : digitChar d1 = digitChar d2) : d1 = d2 := by
  have := congrArg Char.toNat h
  rw [digitChar_toNat d1 h1, digitChar_toNat d2 h2] at this
  omega

private lemma padNum_length (w n : Nat) : (padNum w n).length = w := by
  induction w generalizing n with
  | zero => rfl
  | succ k ihw => simp [padNum, ihw]

private lemma padNum_digits (w : Nat) : ∀ n, ∀ c ∈ padNum w n,
    c.isDigit = true := by
  induction w with
  | zero => intro n c hc; simp [padNum] at hc
  | succ w ih =>
    intro n c hc
    rcases List.mem_append.mp hc with h | h
    · exact ih (n / 10) c h
    · rcases List.mem_singleton.mp h with rfl
      exact digitChar_isDigit _ (Nat.mod_lt _ (by decide))

private lemma padNum_inj (w : Nat) : ∀ n m, n < 10 ^ w → m < 10 ^ w →
    padNum w n = padNum w m → n = m := by
  induction w with
  | zero => intro n m hn hm _; simp at hn hm; omega
  | succ w ih =>
    intro n m hn hm h
    unfold padNum at h
    obtain ⟨h1, h2⟩ := List.append_inj h (by rw [padNum_length, padNum_length])
    have hd : n % 10 = m % 10 :=
      digitChar_inj (Nat.mod_lt _ (by decide)) (Nat.mod_lt _ (by decide))
        (by simpa using h2)
    have hq : n / 10 = m / 10 := by
      refine ih (n / 10) (m / 10) ?_ ?_ h1 <;>
        rw [Nat.div_lt_iff_lt_mul (by decide : (0:Nat) < 10)] <;>
        rw [Nat.pow_succ] at hn hm <;> omega
    omega

private lemma foldl_digits_append (a : Nat) (l : List Char) (c : Char) :
    List.foldl (fun a c => a * 10 + (c.toNat - 48)) a (l ++ [c]) =
      (List.foldl (fun a c => a * 10 + (c.toNat - 48)) a l) * 10 +
        (c.toNat - 48) := by
  rw [List.foldl_append]
  rfl

private lemma natChars_val (n : Nat) : digitsVal (natChars n) = n := by
  induction n using Nat.strong_induction_on with
  | _ n ih =>
    unfold natChars
    split
    case isTrue h =>
      simp only [digitsVal, List.foldl]
      rw [digitChar_toNat n h]
      omega
    case isFalse h =>
      unfold digitsVal
      rw [foldl_digits_append]
      have := ih (n / 10) (Nat.div_lt_self (by omega) (by decide))
      unfold digitsVal at this
      rw [this, digitChar_toNat _ (Nat.mod_lt _ (by decide))]
      omega

private lemma natChars_inj {n m : Nat} (h : natChars n = natChars m) : n = m := by
  have := congrArg digitsVal h
  rwa [natChars_val, natChars_val] at this

private lemma natChars_digits (n : Nat) : ∀ c ∈ natChars n,
    c.isDigit = true := by
  induction n using Nat.strong_induction_on with
  | _ n ih =>
    unfold natChars
    split
    case isTrue h =>
      intro c hc
      rcases List.mem_singleton.mp hc with rfl
      exact digitChar_isDigit _ h
    case isFalse h =>
      intro c hc
      rcases List.mem_append.mp hc with h' | h'
      · exact ih (n / 10) (Nat.div_lt_self (by omega) (by decide)) c h'
      · rcases List.mem_singleton.mp h' with rfl
        exact digitChar_isDigit _ (Nat.mod_lt _ (by decide))

private lemma natChars_cons (n : Nat) :
    ∃ c l, natChars n = c :: l ∧ c.isDigit = true := by
  induction n using Nat.strong_induction_on with
  | _ n ih =>
    unfold natChars
    split
    case isTrue h => exact ⟨digitChar n, [], rfl, digitChar_isDigit _ h⟩
    case isFalse h =>
      obtain ⟨c, l, hcl, hdig⟩ :=
        ih (n / 10) (Nat.div_lt_self (by omega) (by decide))
      exact ⟨c, l ++ [digitChar (n % 10)], by rw [hcl]; rfl, hdig⟩

private lemma intChars_head (v : Int) :
    ∃ c l, intChars v = c :: l ∧ (c = '-' ∨ c.isDigit = true) := by
  unfold intChars
  split
  · exact ⟨'-', natChars v.natAbs, rfl, Or.inl rfl⟩
  · obtain ⟨c, l, hcl, hdig⟩ := natChars_cons v.natAbs
    exact ⟨c, l, hcl, Or.inr hdig⟩

private lemma intChars_inj {a b : Int} (h : intChars a = intChars b) :
    a = b := by
  unfold intChars at h
  split at h <;> split at h
  case isTrue.isTrue ha hb =>
    rw [List.cons.injEq] at h
    have := natChars_inj h.2
    omega
  case isTrue.isFalse ha hb =>
    obtain ⟨c, l, hcl, hdig⟩ := natChars_cons b.natAbs
    rw [hcl, List.cons.injEq] at h
    rw [← h.1] at hdig
    exact absurd hdig (by decide)
  case isFalse.isTrue ha hb =>
    obtain ⟨c, l, hcl, hdig⟩ := natChars_cons a.natAbs
    rw [hcl, List.cons.injEq] at h
    rw [h.1] at hdig
    exact absurd hdig (by decide)
  case isFalse.isFalse ha hb =>
    have := natChars_inj h
    omega

private lemma optIntChars_inj {a b : Option Int}
    (h : optIntChars a = optIntChars b) : a = b := by
  rcases a with _ | va <;> rcases b with _ | vb
  · rfl
  · obtain ⟨c, l, hcl, hdig⟩ := intChars_head vb
    have h' : (['N', 'o', 'n', 'e'] : List Char) = c :: l := by
      rw [← hcl]; exact h
    injection h' with h1 _
    rcases hdig with rfl | hdig
    · exact absurd h1 (by decide)
    · rw [← h1] at hdig; exact absurd hdig (by decide)
  · obtain ⟨c, l, hcl, hdig⟩ := intChars_head va
    have h' : (c :: l) = (['N', 'o', 'n', 'e'] : List Char) := by
      rw [← hcl]; exact h
    injection h' with h1 _
    rcases hdig with rfl | hdig
    · exact absurd h1 (by decide)
    · rw [h1] at hdig; exact absurd hdig (by decide)
  · rw [show optIntChars (some va) = intChars va from rfl,
        show optIntChars (some vb) = intChars vb from rfl] at h
    rw [intChars_inj h]

private lemma colon_not_mem_padNum (w n : Nat) : ':' ∉ padNum w n := by
  intro h
  exact absurd (padNum_digits w n ':' h) (by decide)

private lemma colon_not_mem_natChars (n : Nat) : ':' ∉ natChars n := by
  intro h
  exact absurd (natChars_digits n ':' h) (by decide)

private lemma colon_not_mem_intChars (v : Int) : ':' ∉ intChars v := by
  unfold intChars
  split
  · intro h
    rcases List.mem_cons.mp h with h' | h'
    · exact absurd h' (by decide)
    · exact colon_not_mem_natChars _ h'
  · exact colon_not_mem_natChars _

private lemma colon_not_mem_optIntChars (o : Option Int) :
    ':' ∉ optIntChars o := by
  rcases o with _ | v
  · decide
  · exact colon_not_mem_intChars v

private lemma colon_not_mem_segDate (t : DateTime) : ':' ∉ segDate t := by
  intro h
  unfold segDate at h
  rcases List.mem_append.mp h with h | h
  · exact colon_not_mem_padNum _ _ h
  rcases List.mem_cons.mp h with h | h
  · exact absurd h (by decide)
  rcases List.mem_append.mp h with h | h
  · exact colon_not_mem_padNum _ _ h
  rcases List.mem_cons.mp h with h | h
  · exact absurd h (by decide)
  rcases List.mem_append.mp h with h | h
  · exact colon_not_mem_padNum _ _ h
  rcases List.mem_cons.mp h with h | h
  · exact absurd h (by decide)
  · exact colon_not_mem_padNum _ _ h

private lemma colon_not_mem_segSec (t : DateTime) : ':' ∉ segSec t := by
  intro h
  unfold segSec at h
  rcases List.mem_append.mp h with h | h
  · exact colon_not_mem_padNum _ _ h
  split at h
  · simp at h
  rcases List.mem_cons.mp h with h | h
  · exact absurd h (by decide)
  · exact colon_not_mem_padNum _ _ h

private lemma colon_sep_inj : ∀ {a c b d : List Char}, ':' ∉ a → ':' ∉ c →
    a ++ ':' :: b = c ++ ':' :: d → a = c ∧ b = d := by
  intro a
  induction a with
  | nil =>
    intro c b d _ hc h
    cases c with
    | nil => simpa using h
    | cons y ys =>
      rw [List.nil_append, List.cons_append, List.cons.injEq] at h
      exact absurd (h.1 ▸ List.mem_cons_self y ys) hc
  | cons x xs ih =>
    intro c b d ha hc h
    cases c with
    | nil =>
      rw [List.nil_append, List.cons_append, List.cons.injEq] at h
      exact absurd (h.1 ▸ List.mem_cons_self x xs) ha
    | cons y ys =>
      rw [List.cons_append, List.cons_append, List.cons.injEq] at h
      obtain ⟨rfl, h2⟩ := h
      have hxs : ':' ∉ xs := fun hm => ha (List.mem_cons_of_mem _ hm)
      have hys : ':' ∉ ys := fun hm => hc (List.mem_cons_of_mem _ hm)
      obtain ⟨rfl, hbd⟩ := ih hxs hys h2
      exact ⟨rfl, hbd⟩

private lemma segDate_inj {t1 t2 : DateTime} (hv1 : t1.Valid) (hv2 : t2.Valid)
    (h : segDate t1 = segDate t2) :
    t1.year = t2.year ∧ t1.month = t2.month ∧ t1.day = t2.day ∧
      t1.hour = t2.hour := by
  obtain ⟨_, hy1, _, hmo1, _, hd1, hh1, _⟩ := hv1
  obtain ⟨_, hy2, _, hmo2, _, hd2, hh2, _⟩ := hv2
  have hdm1 : t1.day ≤ 31 := le_trans hd1 (by unfold daysInMonth; split <;> split <;> omega)
  have hdm2 : t2.day ≤ 31 := le_trans hd2 (by unfold daysInMonth; split <;> split <;> omega)
  unfold segDate at h
  obtain ⟨h1, h⟩ := List.append_inj h (by rw [padNum_length, padNum_length])
  rw [List.cons.injEq] at h
  obtain ⟨h2, h⟩ := List.append_inj h.2 (by rw [padNum_length, padNum_length])
  rw [List.cons.injEq] at h
  obtain ⟨h3, h⟩ := List.append_inj h.2 (by rw [padNum_length, padNum_length])
  rw [List.cons.injEq] at h
  refine ⟨padNum_inj 4 _ _ (by omega) (by omega) h1,
          padNum_inj 2 _ _ (by omega) (by omega) h2,
          padNum_inj 2 _ _ (by omega) (by omega) h3,
          padNum_inj 2 _ _ (by omega) (by omega) h.2⟩

private lemma segSec_inj {t1 t2 : DateTime} (hv1 : t1.Valid) (hv2 : t2.Valid)
    (h : segSec t1 = segSec t2) :
    t1.second = t2.second ∧ t1.microsecond = t2.microsecond := by
  obtain ⟨_, _, _, _, _, _, _, _, hs1, hus1⟩ := hv1
  obtain ⟨_, _, _, _, _, _, _, _, hs2, hus2⟩ := hv2
  unfold segSec at h
  obtain ⟨h1, h2⟩ := List.append_inj h (by rw [padNum_length, padNum_length])
  refine ⟨padNum_inj 2 _ _ (by omega) (by omega) h1, ?_⟩
  by_cases hz1 : t1.microsecond = 0 <;> by_cases hz2 : t2.microsecond = 0 <;>
    simp [hz1, hz2] at h2
  · omega
  · exact padNum_inj 6 _ _ (by omega) (by omega) h2

/-- C10: cache-key derivation is injective per endpoint. Each key is a pure
function of the handler's logical parameters (determinism), and two
parameter tuples producing the same key string are equal — including
agreement on which optional filters are absent (`None` renders as `None`,
never as digits). -/
theorem claim10_cache_key_injective :
    (∀ l1 l2 : Int, cacheKeyDates l1 = cacheKeyDates l2 → l1 = l2) ∧
    (∀ s1 e1 s2 e2 : DateTime, ∀ o1 t1 b1 o2 t2 b2 : Option Int,
      s1.Valid → e1.Valid → s2.Valid → e2.Valid →
      cacheKeyDynamics s1 e1 o1 t1 b1 = cacheKeyDynamics s2 e2 o2 t2 b2 →
      s1 = s2 ∧ e1 = e2 ∧ o1 = o2 ∧ t1 = t2 ∧ b1 = b2) ∧
    (∀ o1 t1 b1 o2 t2 b2 : Option Int, ∀ l1 l2 : Int,
      cacheKeyResults o1 t1 b1 l1 = cacheKeyResults o2 t2 b2 l2 →
      o1 = o2 ∧ t1 = t2 ∧ b1 = b2 ∧ l1 = l2) := by
  refine ⟨?_, ?_, ?_⟩
  · intro l1 l2 h
    unfold cacheKeyDates at h
    exact intChars_inj (List.append_cancel_left h)
  · intro s1 e1 s2 e2 o1 t1 b1 o2 t2 b2 hvs1 hve1 hvs2 hve2 h
    unfold cacheKeyDynamics isoChars at h
    simp only [List.append_assoc, List.cons_append] at h
    replace h := List.append_cancel_left h
    obtain ⟨hA1, h⟩ := colon_sep_inj (colon_not_mem_segDate s1)
      (colon_not_mem_segDate s2) h
    obtain ⟨hB1, h⟩ := colon_sep_inj (colon_not_mem_padNum 2 _)
      (colon_not_mem_padNum 2 _) h
    obtain ⟨hC1, h⟩ := colon_sep_inj (colon_not_mem_segSec s1)
      (colon_not_mem_segSec s2) h
    obtain ⟨hA2, h⟩ := colon_sep_inj (colon_not_mem_segDate e1)
      (colon_not_mem_segDate e2) h
    obtain ⟨hB2, h⟩ := colon_sep_inj (colon_not_mem_padNum 2 _)
      (colon_not_mem_padNum 2 _) h
    obtain ⟨hC2, h⟩ := colon_sep_inj (colon_not_mem_segSec e1)
      (colon_not_mem_segSec e2) h
    obtain ⟨hO, h⟩ := colon_sep_inj (colon_not_mem_optIntChars o1)
      (colon_not_mem_optIntChars o2) h
    obtain ⟨hT, hB⟩ := colon_sep_inj (colon_not_mem_optIntChars t1)
      (colon_not_mem_optIntChars t2) h
    obtain ⟨hy1, hmo1, hd1, hh1⟩ := segDate_inj hvs1 hvs2 hA1
    obtain ⟨hss1, hus1⟩ := segSec_inj hvs1 hvs2 hC1
    obtain ⟨hy2, hmo2, hd2, hh2⟩ := segDate_inj hve1 hve2 hA2
    obtain ⟨hss2, hus2⟩ := segSec_inj hve1 hve2 hC2
    obtain ⟨_, _, _, _, hm1, _⟩ := hvs1
    obtain ⟨_, _, _, _, hm2, _⟩ := hvs2
    obtain ⟨_, _, _, _, hm3, _⟩ := hve1
    obtain ⟨_, _, _, _, hm4, _⟩ := hve2
    refine ⟨?_, ?_, optIntChars_inj hO, optIntChars_inj hT,
            optIntChars_inj hB⟩
    · ext <;> first
        | exact hy1 | exact hmo1 | exact hd1 | exact hh1
        | exact padNum_inj 2 _ _ (by omega) (by omega) hB1
        | exact hss1 | exact hus1
    · ext <;> first
        | exact hy2 | exact hmo2 | exact hd2 | exact hh2
        | exact padNum_inj 2 _ _ (by omega) (by omega) hB2
        | exact hss2 | exact hus2
  · intro o1 t1 b1 o2 t2 b2 l1 l2 h
    unfold cacheKeyResults at h
    simp only [List.append_assoc, List.cons_append] at h
    replace h := List.append_cancel_left h
    obtain ⟨hO, h⟩ := colon_sep_inj (colon_not_mem_optIntChars o1)
      (colon_not_mem_optIntChars o2) h
    obtain ⟨hT, h⟩ := colon_sep_inj (colon_not_mem_optIntChars t1)
      (colon_not_mem_optIntChars t2) h
    obtain ⟨hD, hL⟩ := colon_sep_inj (colon_not_mem_optIntChars b1)
      (colon_not_mem_optIntChars b2) h
    exact ⟨optIntChars_inj hO, optIntChars_inj hT, optIntChars_inj hD,
           intChars_inj hL⟩

/-- C10, witness: the injectivity of the dynamics key applied at concrete
equal keys, plus the dates key at limit 10. -/
theorem claim10_witness :
    (10 : Int) = 10 ∧
    ((⟨2025, 1, 1, 10, 0, 0, 0⟩ : DateTime) = ⟨2025, 1, 1, 10, 0, 0, 0⟩ ∧
     (⟨2025, 1, 2, 0, 0, 0, 0⟩ : DateTime) = ⟨2025, 1, 2, 0, 0, 0, 0⟩ ∧
     (some 1 : Option Int) = some 1 ∧ (none : Option Int) = none ∧
     (some (-3) : Option Int) = some (-3)) :=
  ⟨claim10_cache_key_injective.1 10 10 rfl,
   claim10_cache_key_injective.2.1 ⟨2025, 1, 1, 10, 0, 0, 0⟩
     ⟨2025, 1, 2, 0, 0, 0, 0⟩ ⟨2025, 1, 1, 10, 0, 0, 0⟩ ⟨2025, 1, 2, 0, 0, 0, 0⟩
     (some 1) none (some (-3)) (some 1) none (some (-3))
     (by decide) (by decide) (by decide) (by decide) rfl⟩

/-! ## JSON round trip -/

private lemma takeWhile_append_all {p : Char → Bool} {a : List Char}
    (rest : List Char) (h : ∀ c ∈ a, p c = true) :
    (a ++ rest).takeWhile p = a ++ rest.takeWhile p := by
  induction a with
  | nil => rfl
  | cons x xs ih =>
    have hx : p x = true := h x (List.mem_cons_self x xs)
    simp only [List.cons_append, List.takeWhile_cons, hx, if_true]
    rw [ih (fun c hc => h c (List.mem_cons_of_mem x hc))]

private lemma dropWhile_append_all {p : Char → Bool} {a : List Char}
    (rest : List Char) (h : ∀ c ∈ a, p c = true) :
    (a ++ rest).dropWhile p = rest.dropWhile p := by
  induction a with
  | nil => rfl
  | cons x xs ih =>
    have hx : p x = true := h x (List.mem_cons_self x xs)
    simp only [List.cons_append, List.dropWhile_cons, hx, if_true]
    exact ih (fun c hc => h c (List.mem_cons_of_mem x hc))

private lemma takeWhile_eq_nil_headNotDigit {rest : List Char}
    (h : headNotDigit rest) :
    rest.takeWhile (fun c => c.isDigit) = [] := by
  cases rest with
  | nil => rfl
  | cons c t =>
    unfold headNotDigit at h
    simp [List.takeWhile_cons, h]

private lemma dropWhile_eq_self_headNotDigit {rest : List Char}
    (h : headNotDigit rest) :
    rest.dropWhile (fun c => c.isDigit) = rest := by
  cases rest with
  | nil => rfl
  | cons c t =>
    unfold headNotDigit at h
    simp [List.dropWhile_cons, h]

private lemma parseNat_natChars (n : Nat) (rest : List Char)
    (h : headNotDigit rest) :
    parseNat (natChars n ++ rest) = some (n, rest) := by
  unfold parseNat
  rw [takeWhile_append_all rest (natChars_digits n),
      dropWhile_append_all rest (natChars_digits n),
      takeWhile_eq_nil_headNotDigit h, dropWhile_eq_self_headNotDigit h,
      List.append_nil]
  have hne : (natChars n).isEmpty = false := by
    obtain ⟨c, t, hct, _⟩ := natChars_cons n
    rw [hct]
    rfl
  simp [hne, natChars_val]

private lemma parseInt_cons (c : Char) (t : List Char) :
    parseInt (c :: t) =
      if c = '-' then (parseNat t).map (fun p => (-(p.1 : Int), p.2))
      else (parseNat (c :: t)).map (fun p => ((p.1 : Int), p.2)) := rfl

private lemma parseInt_intChars (n : Int) (rest : List Char)
    (h : headNotDigit rest) :
    parseInt (intChars n ++ rest) = some (n, rest) := by
  unfold intChars
  split
  case isTrue hneg =>
    rw [List.cons_append, parseInt_cons, if_pos rfl, parseNat_natChars _ _ h]
    simp only [Option.map]
    have he : -(n.natAbs : Int) = n := by omega
    rw [he]
  case isFalse hneg =>
    obtain ⟨c, t, hct, hdig⟩ := natChars_cons n.natAbs
    rw [hct, List.cons_append, parseInt_cons,
        if_neg (by intro he; rw [he] at hdig; exact absurd hdig (by decide)),
        ← List.cons_append, ← hct, parseNat_natChars _ _ h]
    simp only [Option.map]
    have he : (n.natAbs : Int) = n := by omega
    rw [he]

private lemma parseHex_hexDigitChar : ∀ d, d < 16 →
    parseHex (hexDigitChar d) = some d := by decide

private lemma readHex4_cons (h1 h2 h3 h4 : Char) (rest : List Char) :
    readHex4 (h1 :: h2 :: h3 :: h4 :: rest) =
      match parseHex h1, parseHex h2, parseHex h3, parseHex h4 with
      | some a, some b, some c, some d =>
        some ((((a * 16 + b) * 16 + c) * 16 + d), rest)
      | _, _, _, _ => none := rfl

private lemma readHex4_hex4 (n : Nat) (hn : n < 65536) (rest : List Char) :
    readHex4 (hex4 n ++ rest) = some (n, rest) := by
  unfold hex4
  simp only [List.cons_append, List.nil_append]
  rw [readHex4_cons, parseHex_hexDigitChar _ (Nat.mod_lt _ (by decide)),
      parseHex_hexDigitChar _ (Nat.mod_lt _ (by decide)),
      parseHex_hexDigitChar _ (Nat.mod_lt _ (by decide)),
      parseHex_hexDigitChar _ (Nat.mod_lt _ (by decide))]
  show some ((((n / 4096 % 16) * 16 + n / 256 % 16) * 16 + n / 16 % 16) * 16
      + n % 16, rest) = some (n, rest)
  have he : (((n / 4096 % 16) * 16 + n / 256 % 16) * 16 + n / 16 % 16) * 16
      + n % 16 = n := by omega
  rw [he]

private lemma char_toNat_valid (c : Char) :
    c.toNat < 55296 ∨ (57343 < c.toNat ∧ c.toNat < 1114112) := by
  have h := c.valid
  rcases h with h | h
  · left
    exact h
  · right
    exact h

private lemma parseStr_named_escape (f : Nat) (e d : Char) (t : List Char)
    (hed : escDecode e = some d) (heu : e ≠ 'u') :
    parseStr (f + 1) ('\\' :: e :: t) =
      (parseStr f t).map (fun p => (d :: p.1, p.2)) := by
  simp [parseStr, heu, hed]

private lemma parseStr_u (f : Nat) (t : List Char) :
    parseStr (f + 1) ('\\' :: 'u' :: t) =
      match readHex4 t with
      | none => none
      | some (v, rest₂) =>
        if 55296 ≤ v ∧ v ≤ 56319 then
          match rest₂ with
          | '\\' :: 'u' :: rest₃ =>
            match readHex4 rest₃ with
            | none => none
            | some (w, rest₄) =>
              if 56320 ≤ w ∧ w ≤ 57343 then
                (parseStr f rest₄).map (fun p =>
                  (Char.ofNat ((v - 55296) * 1024 + (w - 56320) + 65536)
                    :: p.1, p.2))
              else none
          | _ => none
        else if 56320 ≤ v ∧ v ≤ 57343 then none
        else (parseStr f rest₂).map (fun p => (Char.ofNat v :: p.1, p.2)) :=
  rfl

private lemma parseStr_escStr (s : List Char) : ∀ fuel rest,
    s.length < fuel →
    parseStr fuel (escStr s ++ '"' :: rest) = some (s, rest) := by
  induction s with
  | nil =>
    intro fuel rest hf
    cases fuel with
    | zero => omega
    | succ f => simp [escStr, parseStr]
  | cons c s ih =>
    intro fuel rest hf
    cases fuel with
    | zero => omega
    | succ f =>
      have hf' : s.length < f := by
        simp only [List.length_cons] at hf
        omega
    
      simp only [escStr, List.append_assoc]
      unfold escChar
      by_cases h1 : c = '"'
      · subst h1
        rw [if_pos rfl, List.cons_append, List.cons_append, List.nil_append,
            parseStr_named_escape f '"' '"' _ (by decide) (by decide),
            ih f rest hf']
        rfl
      rw [if_neg h1]
      by_cases h2 : c = '\\'
      · subst h2
        rw [if_pos rfl, List.cons_append, List.cons_append, List.nil_append,
            parseStr_named_escape f '\\' '\\' _ (by decide) (by decide),
            ih f rest hf']
        rfl
      rw [if_neg h2]
      by_cases h3 : c = '\n'
      · subst h3
        rw [if_pos rfl, List.cons_append, List.cons_append, List.nil_append,
            parseStr_named_escape f 'n' '\n' _ (by decide) (by decide),
            ih f rest hf']
        rfl
      rw [if_neg h3]
      by_cases h4 : c = '\r'
      · subst h4
        rw [if_pos rfl, List.cons_append, List.cons_append, List.nil_append,
            parseStr_named_escape f 'r' '\r' _ (by decide) (by decide),
            ih f rest hf']
        rfl
      rw [if_neg h4]
      by_cases h5 : c = '\t'
      · subst h5
        rw [if_pos rfl, List.cons_append, List.cons_append, List.nil_append,
            parseStr_named_escape f 't' '\t' _ (by decide) (by decide),
            ih f rest hf']
        rfl
      rw [if_neg h5]
      by_cases h6 : c.toNat = 8
      · have hc : c = Char.ofNat 8 := by rw [← h6, Char.ofNat_toNat]
        subst hc
        rw [if_pos h6, List.cons_append, List.cons_append, List.nil_append,
            parseStr_named_escape f 'b' (Char.ofNat 8) _ (by decide) (by decide),
            ih f rest hf']
        rfl
      rw [if_neg h6]
      by_cases h7 : c.toNat = 12
      · have hc : c = Char.ofNat 12 := by rw [← h7, Char.ofNat_toNat]
        subst hc
        rw [if_pos h7, List.cons_append, List.cons_append, List.nil_append,
            parseStr_named_escape f 'f' (Char.ofNat 12) _ (by decide) (by decide),
            ih f rest hf']
        rfl
      rw [if_neg h7]
      by_cases h8 : c.toNat < 32 ∨ 127 ≤ c.toNat
      · rw [if_pos h8]
        have hval := char_toNat_valid c
        by_cases h9 : c.toNat < 65536
        · rw [if_pos h9]
          simp only [List.cons_append, List.append_assoc]
          rw [parseStr_u, readHex4_hex4 c.toNat h9]
          have hns1 : ¬(55296 ≤ c.toNat ∧ c.toNat ≤ 56319) := by omega
          have hns2 : ¬(56320 ≤ c.toNat ∧ c.toNat ≤ 57343) := by omega
          simp [hns1, hns2, ih f rest hf', Char.ofNat_toNat]
        · rw [if_neg h9]
          simp only [List.cons_append, List.append_assoc, List.nil_append]
          rw [parseStr_u,
              readHex4_hex4 (55296 + (c.toNat - 65536) / 1024) (by omega)]
          have hs1 : 55296 ≤ 55296 + (c.toNat - 65536) / 1024 ∧
              55296 + (c.toNat - 65536) / 1024 ≤ 56319 := by omega
          have hs2 : 56320 ≤ 56320 + (c.toNat - 65536) % 1024 ∧
              56320 + (c.toNat - 65536) % 1024 ≤ 57343 := by omega
          simp [hs1, hs2,
                readHex4_hex4 (56320 + (c.toNat - 65536) % 1024) (by omega),
                ih f rest hf']
          rw [show (c.toNat - 65536) / 1024 * 1024 + (c.toNat - 65536) % 1024
              + 65536 = c.toNat from by omega, Char.ofNat_toNat]
      · rw [if_neg h8]
        rw [List.cons_append, List.nil_append]
        have hstep : parseStr (f + 1) (c :: (escStr s ++ '"' :: rest)) =
            (parseStr f (escStr s ++ '"' :: rest)).map
              (fun p => (c :: p.1, p.2)) := by
          simp [parseStr, h1, h2]
        rw [hstep, ih f rest hf']
        rfl

private lemma headNotDigit_cons {c : Char} (t : List Char)
    (h : c.isDigit = false) : headNotDigit (c :: t) := h

private lemma dumpsVal_head (v : PyVal) :
    ∃ c t, dumpsVal v = c :: t ∧ c ≠ ']' := by
  cases v with
  | null => exact ⟨'n', _, rfl, by decide⟩
  | bool b => cases b with
    | true => exact ⟨'t', _, rfl, by decide⟩
    | false => exact ⟨'f', _, rfl, by decide⟩
  | int n =>
    obtain ⟨c, t, hct, hd⟩ := intChars_head n
    refine ⟨c, t, hct, ?_⟩
    rcases hd with rfl | hd
    · decide
    · intro he
      rw [he] at hd
      exact absurd hd (by decide)
  | str s => exact ⟨'"', _, rfl, by decide⟩
  | dt t => exact ⟨'"', _, rfl, by decide⟩
  | arr xs => exact ⟨'[', _, rfl, by decide⟩
  | obj fs => exact ⟨'{', _, rfl, by decide⟩

private lemma dumpsArr_cons_head (x : PyVal) (xs : List PyVal) :
    ∃ c t, dumpsArr (x :: xs) = c :: t ∧ c ≠ ']' := by
  obtain ⟨c, t, hct, hne⟩ := dumpsVal_head x
  cases xs with
  | nil => exact ⟨c, t, by simp [dumpsArr, hct], hne⟩
  | cons y r =>
    exact ⟨c, t ++ ',' :: ' ' :: dumpsArr (y :: r),
      by simp [dumpsArr, hct], hne⟩

private lemma parseVal_int_branch (fuel : Nat) (c : Char) (t : List Char)
    (h : c = '-' ∨ c.isDigit = true) :
    parseVal (fuel + 1) (c :: t) =
      (parseInt (c :: t)).map (fun p => (PyVal.int p.1, p.2)) := by
  rcases h with rfl | hd
  · simp [parseVal]
  · have n1 : ¬(c = '"') := by intro he; rw [he] at hd; exact absurd hd (by decide)
    have n2 : ¬(c = '[') := by intro he; rw [he] at hd; exact absurd hd (by decide)
    have n3 : ¬(c = '{') := by intro he; rw [he] at hd; exact absurd hd (by decide)
    have n4 : ¬(c = 'n') := by intro he; rw [he] at hd; exact absurd hd (by decide)
    have n5 : ¬(c = 't') := by intro he; rw [he] at hd; exact absurd hd (by decide)
    have n6 : ¬(c = 'f') := by intro he; rw [he] at hd; exact absurd hd (by decide)
    simp [parseVal, n1, n2, n3, n4, n5, n6]

private lemma parseVal_lbracket (f : Nat) (c : Char) (t : List Char)
    (hc : ¬(c = ']')) :
    parseVal (f + 1) ('[' :: c :: t) =
      (parseArr f (c :: t)).map (fun p => (PyVal.arr p.1, p.2)) := by
  simp [parseVal, hc]

private lemma parseVal_lbrace (f : Nat) (c : Char) (t : List Char)
    (hc : ¬(c = '}')) :
    parseVal (f + 1) ('{' :: c :: t) =
      (parseObj f (c :: t)).map (fun p => (PyVal.obj p.1, p.2)) := by
  simp [parseVal, hc]

private lemma jsonNativeVal_arr (xs : List PyVal) :
    jsonNativeVal (.arr xs) = jsonNativeArr xs := rfl

private lemma jsonNativeVal_obj (fs : List (List Char × PyVal)) :
    jsonNativeVal (.obj fs) = jsonNativeObj fs := rfl

private lemma jsonNativeArr_cons {x : PyVal} {xs : List PyVal}
    (h : jsonNativeArr (x :: xs) = true) :
    jsonNativeVal x = true ∧ jsonNativeArr xs = true := by
  rw [show jsonNativeArr (x :: xs) = (jsonNativeVal x && jsonNativeArr xs)
      from rfl, Bool.and_eq_true] at h
  exact h

private lemma jsonNativeObj_cons {k : List Char} {v : PyVal}
    {fs : List (List Char × PyVal)}
    (h : jsonNativeObj ((k, v) :: fs) = true) :
    jsonNativeVal v = true ∧ jsonNativeObj fs = true := by
  rw [show jsonNativeObj ((k, v) :: fs) = (jsonNativeVal v && jsonNativeObj fs)
      from rfl, Bool.and_eq_true] at h
  exact h

mutual

private theorem rtVal (fuel : Nat) (v : PyVal) (rest : List Char)
    (hfuel : needVal v ≤ fuel) (hnat : jsonNativeVal v = true)
    (hrest : headNotDigit rest) :
    parseVal fuel (dumpsVal v ++ rest) = some (v, rest) := by
  cases v with
  | null =>
    cases fuel with
    | zero => simp [needVal] at hfuel
    | succ f => simp [dumpsVal, parseVal]
  | bool b =>
    cases fuel with
    | zero => simp [needVal] at hfuel
    | succ f => cases b with
      | true => simp [dumpsVal, parseVal]
      | false => simp [dumpsVal, parseVal]
  | int n =>
    cases fuel with
    | zero => simp [needVal] at hfuel
    | succ f =>
      obtain ⟨c, t, hct, hd⟩ := intChars_head n
      have hsplit : dumpsVal (.int n) ++ rest = c :: (t ++ rest) := by
        simp [dumpsVal, hct]
      rw [hsplit, parseVal_int_branch f c (t ++ rest) hd,
          show c :: (t ++ rest) = intChars n ++ rest from by
            rw [hct, List.cons_append],
          parseInt_intChars n rest hrest]
      rfl
  | str s =>
    cases fuel with
    | zero => simp [needVal] at hfuel
    | succ f =>
      have hsplit : dumpsVal (.str s) ++ rest =
          '"' :: (escStr s ++ '"' :: rest) := by
        simp [dumpsVal]
      rw [hsplit]
      have hlen : s.length < f := by
        simp [needVal] at hfuel
        omega
      simp [parseVal, parseStr_escStr s f rest hlen]
  | dt t => simp [jsonNativeVal] at hnat
  | arr xs =>
    cases fuel with
    | zero => cases xs <;> simp [needVal] at hfuel
    | succ f =>
      cases xs with
      | nil => simp [dumpsVal, dumpsArr, parseVal]
      | cons x xs =>
        obtain ⟨c, t, hct, hne⟩ := dumpsArr_cons_head x xs
        have hsplit : dumpsVal (.arr (x :: xs)) ++ rest =
            '[' :: (c :: (t ++ ']' :: rest)) := by
          simp [dumpsVal, hct]
        rw [hsplit, parseVal_lbracket f c (t ++ ']' :: rest) hne,
            show c :: (t ++ ']' :: rest) = dumpsArr (x :: xs) ++ ']' :: rest
              from by rw [hct, List.cons_append],
            rtArr f (x :: xs) rest (by simp)
              (by simp [needVal] at hfuel; omega)
              (by rw [jsonNativeVal_arr] at hnat; exact hnat)]
        rfl
  | obj fs =>
    cases fuel with
    | zero => cases fs <;> simp [needVal] at hfuel
    | succ f =>
      cases fs with
      | nil => simp [dumpsVal, dumpsObj, parseVal]
      | cons e fs =>
        obtain ⟨k, v⟩ := e
        have hsplit : dumpsVal (.obj ((k, v) :: fs)) ++ rest =
            '{' :: ('"' :: (List.tail (dumpsObj ((k, v) :: fs))
              ++ '}' :: rest)) := by
          cases fs with
          | nil => simp [dumpsVal, dumpsObj]
          | cons g r => simp [dumpsVal, dumpsObj]
        rw [hsplit, parseVal_lbrace f '"' _ (by decide),
            show '"' :: (List.tail (dumpsObj ((k, v) :: fs)) ++ '}' :: rest)
              = dumpsObj ((k, v) :: fs) ++ '}' :: rest from by
                cases fs with
                | nil => simp [dumpsObj]
                | cons g r => simp [dumpsObj],
            rtObj f ((k, v) :: fs) rest (by simp)
              (by simp [needVal] at hfuel; omega)
              (by rw [jsonNativeVal_obj] at hnat; exact hnat)]
        rfl

private theorem rtArr (fuel : Nat) (xs : List PyVal) (rest : List Char)
    (hne : xs ≠ []) (hfuel : needArr xs ≤ fuel)
    (hnat : jsonNativeArr xs = true) :
    parseArr fuel (dumpsArr xs ++ ']' :: rest) = some (xs, rest) := by
  cases fuel with
  | zero =>
    cases xs with
    | nil => exact absurd rfl hne
    | cons x t => cases t <;> simp [needArr] at hfuel
  | succ f =>
    cases xs with
    | nil => exact absurd rfl hne
    | cons x xs =>
      cases xs with
      | nil =>
        have hx : needVal x ≤ f := by
          simp [needArr] at hfuel
          omega
        have hnx : jsonNativeVal x = true := (jsonNativeArr_cons hnat).1
        simp only [dumpsArr, parseArr]
        rw [rtVal f x (']' :: rest) hx hnx (headNotDigit_cons _ (by decide))]
        rfl
      | cons y r =>
        have hx : needVal x ≤ f := by
          simp [needArr] at hfuel
          omega
        have hyr : needArr (y :: r) ≤ f := by
          simp [needArr] at hfuel
          omega
        have hnx : jsonNativeVal x = true := (jsonNativeArr_cons hnat).1
        have hnyr : jsonNativeArr (y :: r) = true := (jsonNativeArr_cons hnat).2
        have hsplit : dumpsArr (x :: y :: r) ++ ']' :: rest =
            dumpsVal x ++ ',' :: ' ' :: (dumpsArr (y :: r) ++ ']' :: rest) := by
          simp [dumpsArr]
        rw [hsplit]
        simp only [parseArr]
        rw [rtVal f x (',' :: ' ' :: (dumpsArr (y :: r) ++ ']' :: rest)) hx hnx
              (headNotDigit_cons _ (by decide))]
        show Option.map (fun p => (x :: p.1, p.2))
            (parseArr f (dumpsArr (y :: r) ++ ']' :: rest)) =
          some (x :: y :: r, rest)
        rw [rtArr f (y :: r) rest (by simp) (by omega) hnyr]
        rfl

private theorem rtObj (fuel : Nat)
    (fs : List (List Char × PyVal)) (rest : List Char)
    (hne : fs ≠ []) (hfuel : needObj fs ≤ fuel)
    (hnat : jsonNativeObj fs = true) :
    parseObj fuel (dumpsObj fs ++ '}' :: rest) = some (fs, rest) := by
  cases fuel with
  | zero =>
    cases fs with
    | nil => exact absurd rfl hne
    | cons e t => obtain ⟨k, v⟩ := e; cases t <;> simp [needObj] at hfuel
  | succ f =>
    cases fs with
    | nil => exact absurd rfl hne
    | cons e fs =>
      obtain ⟨k, v⟩ := e
      cases fs with
      | nil =>
        have hk : k.length < f := by
          simp [needObj] at hfuel
          omega
        have hv : needVal v ≤ f := by
          simp [needObj] at hfuel
          omega
        have hnv : jsonNativeVal v = true := (jsonNativeObj_cons hnat).1
        have hsplit : dumpsObj [(k, v)] ++ '}' :: rest =
            '"' :: (escStr k ++
              '"' :: (':' :: ' ' :: (dumpsVal v ++ '}' :: rest))) := by
          simp [dumpsObj]
        rw [hsplit]
        simp only [parseObj]
        rw [parseStr_escStr k f (':' :: ' ' :: (dumpsVal v ++ '}' :: rest)) hk]
        show (match parseVal f (dumpsVal v ++ '}' :: rest) with
          | none => none
          | some (v', rest₃) =>
            match rest₃ with
            | '}' :: rest₄ => some ([(k, v')], rest₄)
            | ',' :: ' ' :: rest₄ =>
              (parseObj f rest₄).map (fun p => ((k, v') :: p.1, p.2))
            | _ => none) = some ([(k, v)], rest)
        rw [rtVal f v ('}' :: rest) hv hnv (headNotDigit_cons _ (by decide))]
        rfl
      | cons g r =>
        have hk : k.length < f := by
          simp [needObj] at hfuel
          omega
        have hv : needVal v ≤ f := by
          simp [needObj] at hfuel
          omega
        have hgr : needObj (g :: r) ≤ f := by
          simp [needObj] at hfuel
          omega
        have hnv : jsonNativeVal v = true := (jsonNativeObj_cons hnat).1
        have hngr : jsonNativeObj (g :: r) = true := (jsonNativeObj_cons hnat).2
        have hsplit : dumpsObj ((k, v) :: g :: r) ++ '}' :: rest =
            '"' :: (escStr k ++ '"' :: (':' :: ' ' :: (dumpsVal v ++
              ',' :: ' ' :: (dumpsObj (g :: r) ++ '}' :: rest)))) := by
          simp [dumpsObj]
        rw [hsplit]
        simp only [parseObj]
        rw [parseStr_escStr k f _ hk]
        show (match parseVal f (dumpsVal v ++
            ',' :: ' ' :: (dumpsObj (g :: r) ++ '}' :: rest)) with
          | none => none
          | some (v', rest₃) =>
            match rest₃ with
            | '}' :: rest₄ => some ([(k, v')], rest₄)
            | ',' :: ' ' :: rest₄ =>
              (parseObj f rest₄).map (fun p => ((k, v') :: p.1, p.2))
            | _ => none) = some ((k, v) :: g :: r, rest)
        rw [rtVal f v (',' :: ' ' :: (dumpsObj (g :: r) ++ '}' :: rest)) hv hnv
              (headNotDigit_cons _ (by decide))]
        show Option.map (fun p => ((k, v) :: p.1, p.2))
            (parseObj f (dumpsObj (g :: r) ++ '}' :: rest)) =
          some ((k, v) :: g :: r, rest)
        rw [rtObj f (g :: r) rest (by simp) (by omega) hngr]
        rfl

end

private lemma escChar_length_pos (c : Char) : 1 ≤ (escChar c).length := by
  unfold escChar
  split_ifs <;> simp [hex4]

private lemma escStr_length_ge (s : List Char) :
    s.length ≤ (escStr s).length := by
  induction s with
  | nil => simp [escStr]
  | cons c s ih =>
    have := escChar_length_pos c
    simp only [escStr, List.length_append, List.length_cons]
    omega

private lemma dumpsVal_length_pos (v : PyVal) : 1 ≤ (dumpsVal v).length := by
  obtain ⟨c, t, hct, _⟩ := dumpsVal_head v
  rw [hct]
  simp

mutual

private theorem needVal_le (v : PyVal) :
    needVal v ≤ (dumpsVal v).length + 1 := by
  cases v with
  | null => simp [needVal, dumpsVal]
  | bool b => cases b <;> simp [needVal, dumpsVal]
  | int n => simp [needVal, dumpsVal]
  | str s =>
    have := escStr_length_ge s
    simp only [needVal, dumpsVal, List.length_cons, List.length_append]
    omega
  | dt t =>
    have := escStr_length_ge (strOfDateTime t)
    simp only [needVal, dumpsVal, List.length_cons, List.length_append]
    omega
  | arr xs =>
    cases xs with
    | nil => simp [needVal, dumpsVal, dumpsArr]
    | cons x t =>
      have := needArr_le (x :: t)
      simp only [needVal, dumpsVal, List.length_cons, List.length_append]
      omega
  | obj fs =>
    cases fs with
    | nil => simp [needVal, dumpsVal, dumpsObj]
    | cons e t =>
      have := needObj_le (e :: t)
      simp only [needVal, dumpsVal, List.length_cons, List.length_append]
      omega

private theorem needArr_le (xs : List PyVal) :
    needArr xs ≤ (dumpsArr xs).length + 2 := by
  cases xs with
  | nil => simp [needArr, dumpsArr]
  | cons x t =>
    cases t with
    | nil =>
      have := needVal_le x
      simp only [needArr, dumpsArr]
      omega
    | cons y r =>
      have h1 := needVal_le x
      have h2 := needArr_le (y :: r)
      have h3 := dumpsVal_length_pos x
      simp only [needArr, dumpsArr, List.length_append, List.length_cons]
      omega

private theorem needObj_le (fs : List (List Char × PyVal)) :
    needObj fs ≤ (dumpsObj fs).length + 2 := by
  cases fs with
  | nil => simp [needObj, dumpsObj]
  | cons e t =>
    obtain ⟨k, v⟩ := e
    cases t with
    | nil =>
      have h1 := needVal_le v
      have h2 := escStr_length_ge k
      simp only [needObj, dumpsObj, List.length_cons, List.length_append]
      omega
    | cons g r =>
      have h1 := needVal_le v
      have h2 := escStr_length_ge k
      have h3 := needObj_le (g :: r)
      have h4 := dumpsVal_length_pos v
      simp only [needObj, dumpsObj, List.length_cons, List.length_append]
      omega

end

private lemma loads_dumps (v : PyVal) (h : jsonNativeVal v = true) :
    loads (dumpsVal v) = some v := by
  unfold loads
  have h1 := rtVal ((dumpsVal v).length + 1) v []
    (by have := needVal_le v; omega) h trivial
  rw [List.append_nil] at h1
  rw [h1]

/-- C4: the cache round trip, amended. For every JSON-native value `v`
(no `datetime` inside), `set(k, v)` at instant `tw` with resolved TTL
followed by `get(k)` at instant `tr` returns a value equal to `v` while
`tr` precedes the expiry instant; once the TTL has elapsed, or after
`invalidate_key(k)`, `get(k)` reports absence. The original claim's
unrestricted "every value" is refuted by `claim4_counterexample`: the
`default=str` serialization is lossy, a `datetime` value comes back as its
string rendering. -/
theorem claim4_cache_roundtrip (st : RedisState) (tw tr : Int)
    (k : List Char) (v : PyVal) (ttl : Int) (hv : jsonNativeVal v = true) :
    (tr < tw + ttl → rc_get (rc_set st tw k v ttl) tr k = some v) ∧
    (tw + ttl ≤ tr → rc_get (rc_set st tw k v ttl) tr k = none) ∧
    rc_get (rc_invalidate_key (rc_set st tw k v ttl) k) tr k = none := by
  have hget : ∀ t : Int, redisGet (redisSetex st tw k ttl (dumpsVal v)) t k =
      if t < tw + ttl then some (dumpsVal v) else none := by
    intro t
    unfold redisGet redisSetex
    simp
  refine ⟨?_, ?_, ?_⟩
  · intro htr
    unfold rc_get rc_set
    rw [hget tr, if_pos htr]
    show (if (dumpsVal v).isEmpty = true then none else loads (dumpsVal v)) =
      some v
    have hne : (dumpsVal v).isEmpty = false := by
      obtain ⟨c, t, hct, _⟩ := dumpsVal_head v
      rw [hct]
      rfl
    rw [hne]
    simp [loads_dumps v hv]
  · intro htr
    unfold rc_get rc_set
    rw [hget tr, if_neg (by omega)]
  · unfold rc_get rc_invalidate_key rc_set redisDel
    have hdel : (fun k' => if k' = k then none
        else redisSetex st tw k ttl (dumpsVal v) k') k = none := by simp
    unfold redisGet
    rw [hdel]

/-- C4, counterexample to the claim as stated: a `datetime`-valued cache
entry does not round-trip. `set` stores it via `default=str`, and `get`
returns the string `"2025-01-01 00:00:00"`, which is not the `datetime`
value that was set. -/
theorem claim4_counterexample :
    rc_get (rc_set emptyState 0 ['k']
        (PyVal.dt ⟨2025, 1, 1, 0, 0, 0, 0⟩) 60) 10 ['k'] =
      some (PyVal.str "2025-01-01 00:00:00".toList) ∧
    PyVal.str "2025-01-01 00:00:00".toList ≠
      PyVal.dt ⟨2025, 1, 1, 0, 0, 0, 0⟩ :=
  ⟨rfl, fun h => PyVal.noConfusion h⟩

/-- C4, witness: the amended round trip instantiated at a concrete
JSON-native envelope, before expiry. -/
theorem claim4_witness :
    rc_get (rc_set emptyState 0 ['k']
        (PyVal.obj [("total".toList, PyVal.int 5)]) 60) 10 ['k'] =
      some (PyVal.obj [("total".toList, PyVal.int 5)]) :=
  (claim4_cache_roundtrip emptyState 0 10 ['k']
    (PyVal.obj [("total".toList, PyVal.int 5)]) 60 rfl).1 (by norm_num)

/-- C3: the claim says a cache-write failure after a successful query never
fails the read path. In the code none of the three handlers guards
`cache.set(cache_key, response)` with `try`/`except`, so on a cache miss a
failing cache write makes the whole request fail instead of returning the
computed response: evaluating each handler at a failing cache write yields
the error, not the response. -/
theorem claim3_cache_write_failure_propagates :
    handler_dates none [⟨1, 50, 1, 1, 1⟩] 10 (.error "redis down") =
      .error "redis down" ∧
    handler_dynamics none [⟨1, 50, 1, 1, 1⟩] 0 100 none none none
        (.error "redis down") = .error "redis down" ∧
    handler_results none [⟨1, 50, 1, 1, 1⟩] none none none 100
        (.error "redis down") = .error "redis down" :=
  ⟨rfl, rfl, rfl⟩

end Spimex
